import Mathlib

/-!
Shallow embedding of `src/utils.py` from the hr-attrition-model repository:
five pandas-based tabular preprocessing helpers
(`find_missing_values`, `drop_columns_with_high_missing_values`,
`separate_categorical_numerical`, `label_encode_categorical_variables`,
`drop_highly_correlated_variables`), together with theorems checking the
specification's claims against these definitions.

Modelling conventions:
* A DataFrame is a `Table`: a row count plus an ordered list of named,
  dtype-tagged columns of `Value`s.  `WF T` says every column has `T.nrows`
  values (always true of a real DataFrame).
* The pandas missing marker (`NaN`/`None`, detected by `isnull`) is the
  distinguished `Value.missing`.
* Machine floats are modelled by `ℚ`.  A NaN produced by `0/0` or by the
  correlation of a zero-variance column is modelled by making the comparison
  against the threshold return `false`, which is numpy's behaviour for any
  ordered comparison with NaN.
-/

namespace HR

/-- A cell of a table: the missing marker, a number, or a text label. -/
inductive Value where
  | missing : Value
  | num : ℚ → Value
  | str : String → Value
deriving DecidableEq

/-- The pandas dtype of a column, as used by `select_dtypes`. -/
inductive Dtype where
  | object : Dtype
  | category : Dtype
  | numeric : Dtype
deriving DecidableEq

/-- A named column with its dtype tag and cell values. -/
structure Column where
  name : String
  dtype : Dtype
  values : List Value
deriving DecidableEq

/-- A DataFrame: `len(dataframe)` is `nrows`; columns are ordered. -/
structure Table where
  nrows : Nat
  cols : List Column
deriving DecidableEq

/-- Well-formedness of a DataFrame: every column has `nrows` cells. -/
def WF (T : Table) : Prop := ∀ c ∈ T.cols, c.values.length = T.nrows

instance (T : Table) : Decidable (WF T) := by unfold WF; infer_instance

/-- `dataframe.isnull().sum()` for one column: the number of missing cells. -/
def missingCount (c : Column) : Nat :=
  c.values.countP (fun v => decide (v = Value.missing))

/-- `total_missing / len(dataframe) * 100` for one column. -/
def missingPct (T : Table) (c : Column) : ℚ :=
  ((missingCount c : ℚ) / (T.nrows : ℚ)) * 100

/-- The message returned by `find_missing_values` when nothing is missing. -/
def noMissingMsg : String := "There are no missing values in the DataFrame."

/-- Embedding of `find_missing_values` (src/utils.py lines 6-30): if the total
missing count is zero return the sentinel message, else return the rows of the
`Total`/`Percentage` frame restricted to columns with `Total > 0`, in original
column order. -/
def find_missing_values (T : Table) : String ⊕ List (String × Nat × ℚ) :=
  if (T.cols.map missingCount).sum = 0 then
    Sum.inl noMissingMsg
  else
    Sum.inr ((T.cols.map (fun c => (c.name, missingCount c, missingPct T c))).filter
      (fun r => decide (0 < r.2.1)))

/-- The drop condition of `drop_columns_with_high_missing_values`
(src/utils.py line 50): `percent_missing > threshold`.  When `nrows = 0` the
percentage is numpy's `0/0 = NaN` and the comparison is `false`. -/
def shouldDropMissing (T : Table) (t : ℚ) (c : Column) : Bool :=
  T.nrows != 0 && decide (t < missingPct T c)

/-- Embedding of `drop_columns_with_high_missing_values`
(src/utils.py lines 33-53): drop every column whose missing percentage
exceeds the threshold; `dataframe.drop` keeps the remaining columns in
original order. -/
def drop_columns_with_high_missing_values (T : Table) (t : ℚ) : Table :=
  Table.mk T.nrows (T.cols.filter (fun c => ! shouldDropMissing T t c))

/-- `select_dtypes(include=['object', 'category'])` membership test. -/
def isCategorical (c : Column) : Bool :=
  c.dtype == Dtype.object || c.dtype == Dtype.category

/-- Embedding of `separate_categorical_numerical` (src/utils.py lines 56-74):
the object/category columns and the remaining columns, both in original
order, over the same rows. -/
def separate_categorical_numerical (T : Table) : Table × Table :=
  (Table.mk T.nrows (T.cols.filter isCategorical),
   Table.mk T.nrows (T.cols.filter (fun c => ! isCategorical c)))

/-- The strict order on cell values used to sort a column's distinct values,
mirroring the per-type orders `numpy.unique` sorts by inside
`LabelEncoder.fit_transform` (numbers by `<`, strings lexicographically),
extended to a total order across the three kinds. -/
def vlt : Value → Value → Bool
  | Value.missing, Value.missing => false
  | Value.missing, Value.num _ => true
  | Value.missing, Value.str _ => true
  | Value.num _, Value.missing => false
  | Value.num a, Value.num b => decide (a < b)
  | Value.num _, Value.str _ => true
  | Value.str _, Value.missing => false
  | Value.str _, Value.num _ => false
  | Value.str a, Value.str b => decide (a < b)

/-- The integer code `LabelEncoder` assigns to value `v` of a column `vs`:
its zero-based position in the sorted list of the column's distinct values,
i.e. the number of distinct values strictly below `v`. -/
def codeOf (vs : List Value) (v : Value) : Nat :=
  (vs.dedup.filter (fun u => vlt u v)).length

/-- `label_encoder.fit_transform(column)`: replace every cell by its integer
code (stored back into the frame, hence as a numeric cell). -/
def encodeColumn (vs : List Value) : List Value :=
  vs.map (fun v => Value.num (codeOf vs v))

/-- One iteration of the loop in `label_encode_categorical_variables`
(src/utils.py lines 95-97): if a column named `n` exists, overwrite it with
its encoded values (an integer column, hence numeric dtype); otherwise the
name is silently skipped and nothing changes. -/
def encodeNamed (cols : List Column) (n : String) : List Column :=
  cols.map (fun c =>
    if c.name = n then Column.mk c.name Dtype.numeric (encodeColumn c.values) else c)

/-- Embedding of `label_encode_categorical_variables`
(src/utils.py lines 76-99): copy the frame, then encode each listed column
in turn. -/
def label_encode_categorical_variables (T : Table) (L : List String) : Table :=
  Table.mk T.nrows (L.foldl encodeNamed T.cols)

/-- A column of the all-numeric table handed to
`drop_highly_correlated_variables`; per the spec (§4.5) that function is
defined only on tables of numerical columns, so cells are plain numbers. -/
structure NColumn where
  name : String
  values : List ℚ
deriving DecidableEq

/-- Mean of a column (`0` junk value on an empty column, never used since an
empty column has zero variance and its correlations are NaN). -/
def lmean (xs : List ℚ) : ℚ := xs.sum / (xs.length : ℚ)

/-- The column with its mean subtracted from every entry. -/
def centered (xs : List ℚ) : List ℚ := xs.map (fun x => x - lmean xs)

/-- Dot product of two columns (over their common length). -/
def dot (xs ys : List ℚ) : ℚ := ((xs.zip ys).map (fun p => p.1 * p.2)).sum

/-- Unnormalised covariance `Σ (xᵢ - x̄)(yᵢ - ȳ)`; the Pearson correlation
computed by `dataframe.corr()` is `covSum x y / sqrt (covSum x x * covSum y y)`. -/
def covSum (xs ys : List ℚ) : ℚ := dot (centered xs) (centered ys)

/-- `Σ (xᵢ - x̄)²`, the unnormalised variance. -/
def varSum (xs : List ℚ) : ℚ := covSum xs xs

/-- The entry of `mask = corr_matrix.abs() >= threshold`
(src/utils.py lines 116-118) for the pair of columns `xs`, `ys`: whether the
absolute Pearson correlation is defined and at least `t`.  A zero-variance
(e.g. constant or too-short) column makes the correlation NaN, and any
comparison with NaN is `false`.  For `t > 0` squaring removes the square
root: `|corr| ≥ t ↔ covSum² ≥ t² · varSum x · varSum y`. -/
def absCorrGE (xs ys : List ℚ) (t : ℚ) : Bool :=
  if varSum xs = 0 ∨ varSum ys = 0 then false
  else decide (t ≤ 0) || decide (t ^ 2 * (varSum xs * varSum ys) ≤ covSum xs ys ^ 2)

/-- Membership of a column in `high_corr_vars` (src/utils.py lines 121-126):
some differently-named column is correlated with it at or above `t`. -/
def markedHighCorr (cols : List NColumn) (t : ℚ) (c : NColumn) : Bool :=
  cols.any (fun c2 => c2.name != c.name && absCorrGE c2.values c.values t)

/-- Embedding of `drop_highly_correlated_variables`
(src/utils.py lines 102-131): drop every column in `high_corr_vars`, keeping
the rest in original order. -/
def drop_highly_correlated_variables (cols : List NColumn) (t : ℚ) : List NColumn :=
  cols.filter (fun c => ! markedHighCorr cols t c)

/-! ### Heap model for the no-mutation claim

Python passes DataFrames by reference, so "the function does not modify the
caller's table" is a statement about the object store.  `Heap` is the store of
`Table` objects; an argument is an index into it.  Each heap function performs
exactly the store effects of the pandas calls in the source: `isnull`/`sum`/
`select_dtypes`/`drop`/`corr` allocate fresh objects (modelled by appending),
`dataframe.copy()` allocates a fresh table with the same contents, and
`encoded_dataframe[column] = ...` mutates the copy in place (modelled by
`List.set` at the copy's index). -/

/-- The object store: one cell per DataFrame. -/
abbrev Heap := List Table

/-- Junk table used to totalise out-of-range reads. -/
def emptyTable : Table := Table.mk 0 []

/-- Dereference a DataFrame argument. -/
def heapRead (h : Heap) (i : Nat) : Table := (h[i]?).getD emptyTable

/-- `find_missing_values` on the heap: reads only; its report is not a table,
so the store is unchanged. -/
def find_missing_values_heap (h : Heap) (i : Nat) :
    Heap × (String ⊕ List (String × Nat × ℚ)) :=
  (h, find_missing_values (heapRead h i))

/-- `drop_columns_with_high_missing_values` on the heap: `dataframe.drop`
(with the default `inplace=False`) allocates the result frame; the local
rebinding `dataframe = ...` does not touch the argument object. -/
def drop_columns_heap (h : Heap) (i : Nat) (t : ℚ) : Heap × Nat :=
  (h ++ [drop_columns_with_high_missing_values (heapRead h i) t], h.length)

/-- `separate_categorical_numerical` on the heap: `select_dtypes` allocates
both result frames. -/
def separate_heap (h : Heap) (i : Nat) : Heap × (Nat × Nat) :=
  (h ++ [(separate_categorical_numerical (heapRead h i)).1,
         (separate_categorical_numerical (heapRead h i)).2],
   (h.length, h.length + 1))

/-- One in-place `encoded_dataframe[column] = fit_transform(...)` step. -/
def encodeNamedTable (T : Table) (n : String) : Table :=
  Table.mk T.nrows (encodeNamed T.cols n)

/-- `label_encode_categorical_variables` on the heap: `dataframe.copy()`
allocates a fresh table at index `h.length`, and each loop iteration mutates
that copy in place. -/
def label_encode_heap (h : Heap) (i : Nat) (L : List String) : Heap × Nat :=
  let j := h.length
  let h1 := h ++ [heapRead h i]
  (L.foldl (fun hh n => hh.set j (encodeNamedTable (heapRead hh j) n)) h1, j)

/-- `drop_highly_correlated_variables` on the (numeric-table) heap: `corr`,
`abs`, the comparison and `drop` all allocate; the argument is only read. -/
def drop_corr_heap (h : List (List NColumn)) (k : Nat) (t : ℚ) :
    List (List NColumn) × Nat :=
  (h ++ [drop_highly_correlated_variables ((h[k]?).getD []) t], h.length)

/-! ### Concrete example tables used by the spec's end-to-end examples and by
the witnesses below

The arithmetic of `ℚ` is `@[irreducible]` by default, which stops `decide`
from evaluating the definitions above on concrete tables; restoring the
default reducibility of the arithmetic lets all concrete computations below
go through `decide`. -/

set_option allowUnsafeReducibility true in
attribute [semireducible] Rat.add Rat.mul Rat.sub Rat.div Rat.inv Rat.neg Rat.normalize

/-- Column `A = [1, 2, 3, 4]` of the spec's correlation example. -/
def exColA : NColumn := NColumn.mk "A" [1, 2, 3, 4]

/-- Column `B = [2, 4, 6, 8]` of the spec's correlation example. -/
def exColB : NColumn := NColumn.mk "B" [2, 4, 6, 8]

/-- Two uncorrelated columns (`corr = -2/10 ≈ -0.2`). -/
def exColX : NColumn := NColumn.mk "X" [1, 2, 3, 4]

/-- See `exColX`. -/
def exColY : NColumn := NColumn.mk "Y" [1, -1, 1, -1]

/-- The spec's missing-value example: `A = [1, 2, missing, 4]`,
`B = [x, y, x, z]`. -/
def missingExampleTable : Table :=
  Table.mk 4
    [Column.mk "A" Dtype.numeric [Value.num 1, Value.num 2, Value.missing, Value.num 4],
     Column.mk "B" Dtype.object [Value.str "x", Value.str "y", Value.str "x", Value.str "z"]]

/-- A column with one of two cells missing: missing percentage `50`. -/
def colHalfMissing : Column := Column.mk "A" Dtype.numeric [Value.missing, Value.num 1]

/-- Two-row table whose column `A` is 50% missing and `B` complete. -/
def halfMissingTable : Table :=
  Table.mk 2 [colHalfMissing, Column.mk "B" Dtype.numeric [Value.num 1, Value.num 2]]

/-- A zero-row table with one (empty) column. -/
def zeroRowTable : Table := Table.mk 0 [Column.mk "A" Dtype.numeric []]

/-- Categorical column `B = [x, z, x]`. -/
def encodeColB : Column := Column.mk "B" Dtype.object [Value.str "x", Value.str "z", Value.str "x"]

/-- Table with a categorical column `B` and a numerical column `C`. -/
def encodeExampleTable : Table :=
  Table.mk 3 [encodeColB, Column.mk "C" Dtype.numeric [Value.num 5, Value.num 6, Value.num 7]]

/-! ### Correlation pruning: C1, C2, C3 -/

theorem dot_comm (xs ys : List ℚ) : dot xs ys = dot ys xs := by
  induction xs generalizing ys with
  | nil => cases ys <;> simp [dot]
  | cons x xs ih =>
    cases ys with
    | nil => simp [dot]
    | cons y ys =>
      simp only [dot, List.zip_cons_cons, List.map_cons, List.sum_cons]
      rw [show ((xs.zip ys).map (fun p => p.1 * p.2)).sum = dot xs ys from rfl,
        show ((ys.zip xs).map (fun p => p.1 * p.2)).sum = dot ys xs from rfl, ih ys,
        mul_comm]

theorem covSum_comm (xs ys : List ℚ) : covSum xs ys = covSum ys xs := by
  unfold covSum; exact dot_comm _ _

/-- The `mask` of the source is a symmetric matrix. -/
theorem absCorrGE_symm (xs ys : List ℚ) (t : ℚ) :
    absCorrGE xs ys t = absCorrGE ys xs t := by
  by_cases hx : varSum xs = 0 <;> by_cases hy : varSum ys = 0 <;>
    simp [absCorrGE, hx, hy, covSum_comm xs ys, mul_comm]

/-- Any column having an above-threshold partner lands in `high_corr_vars`
and is dropped, whether or not it comes first in column order. -/
theorem not_mem_drop_of_corr (cols : List NColumn) (t : ℚ) (c c2 : NColumn)
    (hc2 : c2 ∈ cols) (hne : c2.name ≠ c.name)
    (hge : absCorrGE c2.values c.values t = true) :
    c ∉ drop_highly_correlated_variables cols t := by
  intro hmem
  rw [drop_highly_correlated_variables, List.mem_filter] at hmem
  have hmark : markedHighCorr cols t c = true := by
    rw [markedHighCorr, List.any_eq_true]
    refine ⟨c2, hc2, ?_⟩
    rw [Bool.and_eq_true, bne_iff_ne]
    exact ⟨hne, hge⟩
  rw [hmark] at hmem
  exact absurd hmem.2 (by decide)

/-- C1 counterexample: on the spec's own example (A = [1,2,3,4],
B = [2,4,6,8], threshold 0.7) the code drops BOTH columns; in particular the
earlier column A does not survive, contradicting the claimed tie-break
policy. -/
theorem earlier_column_dropped_counterexample :
    drop_highly_correlated_variables [exColA, exColB] (7 / 10) = [] ∧
    exColA ∉ drop_highly_correlated_variables [exColA, exColB] (7 / 10) := by
  decide

/-- C1 (amended): no member of an above-threshold correlated pair survives:
any column with an above-threshold absolute correlation to a differently
named column is dropped, including the column encountered earliest in
column order. -/
theorem earlier_column_does_not_survive (cols : List NColumn) (t : ℚ) (c : NColumn)
    (h : ∃ c2 ∈ cols, c2.name ≠ c.name ∧ absCorrGE c2.values c.values t = true) :
    c ∉ drop_highly_correlated_variables cols t := by
  obtain ⟨c2, hc2, hne, hge⟩ := h
  exact not_mem_drop_of_corr cols t c c2 hc2 hne hge

/-- Witness for the amended C1 at the spec's example. -/
theorem earlier_column_does_not_survive_witness :
    exColB ∉ drop_highly_correlated_variables [exColA, exColB] (7 / 10) :=
  earlier_column_does_not_survive [exColA, exColB] (7 / 10) exColB
    ⟨exColA, by decide, by decide, by decide⟩

/-- C2: the marking loop ranges over ordered pairs symmetrically, so both
members of an above-threshold pair are removed from the output. -/
theorem both_of_high_corr_pair_dropped (cols : List NColumn) (t : ℚ)
    (A B : NColumn) (hA : A ∈ cols) (hB : B ∈ cols) (hne : A.name ≠ B.name)
    (hge : absCorrGE A.values B.values t = true) :
    A ∉ drop_highly_correlated_variables cols t ∧
    B ∉ drop_highly_correlated_variables cols t := by
  constructor
  · exact not_mem_drop_of_corr cols t A B hB (fun hnm => hne hnm.symm)
      (by rw [absCorrGE_symm]; exact hge)
  · exact not_mem_drop_of_corr cols t B A hA hne hge

/-- Witness for C2 at the spec's example pair. -/
theorem both_of_high_corr_pair_dropped_witness :
    exColA ∉ drop_highly_correlated_variables [exColA, exColB] (7 / 10) ∧
    exColB ∉ drop_highly_correlated_variables [exColA, exColB] (7 / 10) :=
  both_of_high_corr_pair_dropped [exColA, exColB] (7 / 10) exColA exColB
    (by decide) (by decide) (by decide) (by decide)

/-- C3: any two differently named columns that both survive the pruning have
absolute pairwise correlation strictly below the threshold. -/
theorem retained_columns_below_threshold (cols : List NColumn) (t : ℚ)
    (c c2 : NColumn) (hc : c ∈ drop_highly_correlated_variables cols t)
    (hc2 : c2 ∈ drop_highly_correlated_variables cols t)
    (hne : c.name ≠ c2.name) : absCorrGE c.values c2.values t = false := by
  rw [drop_highly_correlated_variables, List.mem_filter] at hc hc2
  cases hge : absCorrGE c.values c2.values t
  · rfl
  · exfalso
    have hmark : markedHighCorr cols t c2 = true := by
      rw [markedHighCorr, List.any_eq_true]
      refine ⟨c, hc.1, ?_⟩
      rw [Bool.and_eq_true, bne_iff_ne]
      exact ⟨hne, hge⟩
    rw [hmark] at hc2
    exact absurd hc2.2 (by decide)

/-- Witness for C3: X and Y (correlation -0.2) both survive at threshold 0.7
and are indeed below threshold. -/
theorem retained_columns_below_threshold_witness :
    absCorrGE exColX.values exColY.values (7 / 10) = false :=
  retained_columns_below_threshold [exColX, exColY] (7 / 10) exColX exColY
    (by decide) (by decide) (by decide)

/-! ### Missing-value reporting and pruning: C4, C5, C10 -/

/-- The total missing count is zero exactly when no cell is the marker. -/
theorem total_missing_zero_iff (T : Table) :
    (T.cols.map missingCount).sum = 0 ↔
      ∀ c ∈ T.cols, ∀ v ∈ c.values, v ≠ Value.missing := by
  rw [List.sum_eq_zero_iff]
  constructor
  · intro h c hc v hv hveq
    have hc0 : missingCount c = 0 := h _ (List.mem_map_of_mem missingCount hc)
    rw [missingCount, List.countP_eq_zero] at hc0
    exact hc0 v hv (by rw [hveq]; simp)
  · intro h n hn
    obtain ⟨c, hc, rfl⟩ := List.mem_map.mp hn
    rw [missingCount, List.countP_eq_zero]
    intro v hv
    simpa using h c hc v hv

/-- C4: with at least one row (so that the percentage is defined), a column
is retained by `drop_columns_with_high_missing_values` iff its missing
percentage is at most the threshold, and dropped iff it is strictly greater;
the comparison is on the percentage scale against the raw threshold. -/
theorem retained_iff_missing_pct_le (T : Table) (t : ℚ) (h0 : 0 < T.nrows) :
    ∀ c ∈ T.cols,
      ((c ∈ (drop_columns_with_high_missing_values T t).cols ↔ missingPct T c ≤ t) ∧
       (c ∉ (drop_columns_with_high_missing_values T t).cols ↔ t < missingPct T c)) := by
  intro c hc
  have hnz : T.nrows ≠ 0 := Nat.pos_iff_ne_zero.mp h0
  have key : c ∈ (drop_columns_with_high_missing_values T t).cols ↔ missingPct T c ≤ t := by
    rw [drop_columns_with_high_missing_values]
    simp [List.mem_filter, hc, shouldDropMissing, hnz, not_lt]
  refine ⟨key, ?_⟩
  rw [← not_le]
  exact not_congr key

/-- Witness for C4: at the default threshold `0.7` a 50%-missing column
(percentage `50`, not fraction `0.5`) is dropped. -/
theorem retained_iff_missing_pct_le_witness :
    colHalfMissing ∉ (drop_columns_with_high_missing_values halfMissingTable (7 / 10)).cols :=
  ((retained_iff_missing_pct_le halfMissingTable (7 / 10) (by decide)) colHalfMissing
    (by decide)).2.mpr (by decide)

/-- C5: `find_missing_values` returns the sentinel message iff no cell is the
missing marker; otherwise it returns exactly the columns with positive
missing count, in original column order, each with its (count, percentage)
pair; on the spec's example the report is {A: (1, 25.0)}. -/
theorem missing_report_correct (T : Table) :
    (find_missing_values T = Sum.inl noMissingMsg ↔
      ∀ c ∈ T.cols, ∀ v ∈ c.values, v ≠ Value.missing) ∧
    ((¬ ∀ c ∈ T.cols, ∀ v ∈ c.values, v ≠ Value.missing) →
      find_missing_values T =
        Sum.inr ((T.cols.filter (fun c => decide (0 < missingCount c))).map
          (fun c => (c.name, missingCount c, missingPct T c)))) ∧
    find_missing_values missingExampleTable = Sum.inr [("A", 1, 25)] := by
  refine ⟨?_, ?_, by decide⟩
  · rw [← total_missing_zero_iff, find_missing_values]
    by_cases h : (T.cols.map missingCount).sum = 0 <;> simp [h]
  · intro h
    rw [← total_missing_zero_iff] at h
    rw [find_missing_values, if_neg h]
    congr 1
    rw [List.filter_map]
    rfl

/-- Witness for C5: the example table has a missing cell, so the report
branch is taken. -/
theorem missing_report_correct_witness :
    find_missing_values missingExampleTable =
      Sum.inr ((missingExampleTable.cols.filter (fun c => decide (0 < missingCount c))).map
        (fun c => (c.name, missingCount c, missingPct missingExampleTable c))) :=
  (missing_report_correct missingExampleTable).2.1 (by decide)

/-- C6: `separate_categorical_numerical` partitions the columns exactly
(every column lands in exactly one side, nothing else appears, original
relative order is kept on both sides) and both outputs keep the row count. -/
theorem split_partitions_columns (T : Table) :
    (∀ c ∈ T.cols,
      (c ∈ (separate_categorical_numerical T).1.cols ∧
       c ∉ (separate_categorical_numerical T).2.cols) ∨
      (c ∉ (separate_categorical_numerical T).1.cols ∧
       c ∈ (separate_categorical_numerical T).2.cols)) ∧
    (∀ c : Column, (c ∈ (separate_categorical_numerical T).1.cols ∨
       c ∈ (separate_categorical_numerical T).2.cols) → c ∈ T.cols) ∧
    (separate_categorical_numerical T).1.cols.Sublist T.cols ∧
    (separate_categorical_numerical T).2.cols.Sublist T.cols ∧
    (separate_categorical_numerical T).1.nrows = T.nrows ∧
    (separate_categorical_numerical T).2.nrows = T.nrows := by
  refine ⟨?_, ?_, List.filter_sublist _, List.filter_sublist _, rfl, rfl⟩
  · intro c hc
    cases h : isCategorical c with
    | true =>
      left
      constructor
      · simp [separate_categorical_numerical, List.mem_filter, hc, h]
      · simp [separate_categorical_numerical, List.mem_filter, hc, h]
    | false =>
      right
      constructor
      · simp [separate_categorical_numerical, List.mem_filter, hc, h]
      · simp [separate_categorical_numerical, List.mem_filter, hc, h]
  · intro c hmem
    rcases hmem with h | h
    · exact (List.mem_filter.mp h).1
    · exact (List.mem_filter.mp h).1

/-- Witness for C6: the object column of the example table lands in the
categorical output and not in the numerical one. -/
theorem split_partitions_columns_witness :
    encodeColB ∈ (separate_categorical_numerical encodeExampleTable).1.cols ∧
    encodeColB ∉ (separate_categorical_numerical encodeExampleTable).2.cols := by
  rcases (split_partitions_columns encodeExampleTable).1 encodeColB (by decide) with h | h
  · exact h
  · exact absurd
      (by decide : encodeColB ∈ (separate_categorical_numerical encodeExampleTable).1.cols) h.1

/-- C10: on a well-formed zero-row table `find_missing_values` returns the
sentinel (the total missing count is zero, so the branch that would divide
by the row count is never reached) and `drop_columns_with_high_missing_values`
returns the table unchanged (its `0/0 = NaN` percentage never compares
greater than the threshold); a zero-column table also yields the sentinel. -/
theorem degenerate_tables_safe (T : Table) (t : ℚ) (hwf : WF T) (h0 : T.nrows = 0) :
    find_missing_values T = Sum.inl noMissingMsg ∧
    drop_columns_with_high_missing_values T t = T ∧
    ∀ T2 : Table, T2.cols = [] → find_missing_values T2 = Sum.inl noMissingMsg := by
  refine ⟨?_, ?_, ?_⟩
  · have hcond : (T.cols.map missingCount).sum = 0 := by
      rw [List.sum_eq_zero_iff]
      intro n hn
      obtain ⟨c, hc, rfl⟩ := List.mem_map.mp hn
      have hv : c.values = [] := List.length_eq_zero.mp (by rw [hwf c hc, h0])
      rw [missingCount, hv]
      rfl
    rw [find_missing_values, if_pos hcond]
  · rw [drop_columns_with_high_missing_values]
    have hall : T.cols.filter (fun c => ! shouldDropMissing T t c) = T.cols := by
      rw [List.filter_eq_self]
      intro c hc
      simp [shouldDropMissing, h0]
    rw [hall]
  · intro T2 h2
    have hcond2 : (T2.cols.map missingCount).sum = 0 := by rw [h2]; rfl
    rw [find_missing_values, if_pos hcond2]

/-- Witness for C10 on a one-column zero-row table. -/
theorem degenerate_tables_safe_witness :
    find_missing_values zeroRowTable = Sum.inl noMissingMsg ∧
    drop_columns_with_high_missing_values zeroRowTable (7 / 10) = zeroRowTable := by
  have h := degenerate_tables_safe zeroRowTable (7 / 10) (by decide) rfl
  exact ⟨h.1, h.2.1⟩

/-! ### The frame property: C8 -/

/-- Writing some cell `j ≠ i` over and over (the in-place column assignments
of the encoding loop, all aimed at the fresh copy) never changes cell `i`. -/
theorem foldl_set_getElem {α β : Type} (j : Nat) (g : List α → β → α) (L : List β)
    (h : List α) (i : Nat) (hij : i ≠ j) :
    (L.foldl (fun hh n => hh.set j (g hh n)) h)[i]? = h[i]? := by
  induction L generalizing h with
  | nil => rfl
  | cons n L ih =>
    rw [List.foldl_cons, ih]
    exact List.getElem?_set_ne (fun he => hij he.symm)

/-- C8: none of the five functions mutates the caller's table: after any of
the calls, the heap cell holding the input table is unchanged.  The only
in-place writes in the source are the column assignments of
`label_encode_categorical_variables`, which all target the fresh copy made
on src/utils.py line 91. -/
theorem functions_do_not_mutate_input (h : Heap) (g : List (List NColumn))
    (i k : Nat) (t : ℚ) (L : List String) (hi : i < h.length) (hk : k < g.length) :
    (find_missing_values_heap h i).1[i]? = h[i]? ∧
    (drop_columns_heap h i t).1[i]? = h[i]? ∧
    (separate_heap h i).1[i]? = h[i]? ∧
    (label_encode_heap h i L).1[i]? = h[i]? ∧
    (drop_corr_heap g k t).1[k]? = g[k]? := by
  refine ⟨rfl, ?_, ?_, ?_, ?_⟩
  · rw [drop_columns_heap, List.getElem?_append, if_pos hi]
  · rw [separate_heap, List.getElem?_append, if_pos hi]
  · rw [label_encode_heap]
    have hij : i ≠ h.length := Nat.ne_of_lt hi
    calc (L.foldl (fun hh n => hh.set h.length (encodeNamedTable (heapRead hh h.length) n))
            (h ++ [heapRead h i]))[i]?
        = (h ++ [heapRead h i])[i]? := foldl_set_getElem h.length _ L _ i hij
      _ = h[i]? := by rw [List.getElem?_append, if_pos hi]
  · rw [drop_corr_heap, List.getElem?_append, if_pos hk]

/-- Witness for C8 on singleton heaps. -/
theorem functions_do_not_mutate_input_witness :
    (label_encode_heap [encodeExampleTable] 0 ["B"]).1[0]? = some encodeExampleTable ∧
    (drop_corr_heap [[exColA, exColB]] 0 (7 / 10)).1[0]? = some [exColA, exColB] := by
  have h := functions_do_not_mutate_input [encodeExampleTable] [[exColA, exColB]] 0 0
    (7 / 10) ["B"] (by decide) (by decide)
  exact ⟨h.2.2.2.1.trans rfl, h.2.2.2.2.trans rfl⟩

/-! ### Label encoding: C7, C9

The key facts about `codeOf`: on the members of a column it is injective and
its image is an initial segment of ℕ, which makes re-encoding an already
encoded column the identity (`encodeColumn_idem`), which in turn collapses
duplicate names in the caller's column list. -/

theorem vlt_irrefl (v : Value) : vlt v v = false := by
  cases v <;> simp [vlt]

theorem vlt_trans {u v w : Value} (h1 : vlt u v = true) (h2 : vlt v w = true) :
    vlt u w = true := by
  cases u <;> cases v <;> cases w <;> simp_all [vlt] <;> exact lt_trans h1 h2

theorem vlt_total {u v : Value} (h : u ≠ v) : vlt u v = true ∨ vlt v u = true := by
  cases u with
  | missing =>
    cases v with
    | missing => exact absurd rfl h
    | num b => left; rfl
    | str b => left; rfl
  | num a =>
    cases v with
    | missing => right; rfl
    | num b =>
      have hab : a ≠ b := fun he => h (by rw [he])
      rcases lt_or_gt_of_ne hab with hl | hl
      · left; simp [vlt, hl]
      · right; simp [vlt, hl]
    | str b => left; rfl
  | str a =>
    cases v with
    | missing => right; rfl
    | num b => right; rfl
    | str b =>
      have hab : a ≠ b := fun he => h (by rw [he])
      rcases lt_or_gt_of_ne hab with hl | hl
      · left; simp [vlt, hl]
      · right; simp [vlt, hl]

theorem dedup_toFinset {α : Type} [DecidableEq α] (l : List α) :
    l.dedup.toFinset = l.toFinset := by
  ext a
  simp

theorem toFinset_map_eq {α β : Type} [DecidableEq α] [DecidableEq β]
    (f : α → β) (l : List α) : (l.map f).toFinset = l.toFinset.image f := by
  ext b
  simp

theorem codeOf_eq_card (vs : List Value) (v : Value) :
    codeOf vs v = (vs.toFinset.filter (fun u => vlt u v = true)).card := by
  rw [codeOf]
  have h1 : (vs.dedup.filter (fun u => vlt u v)).Nodup := (List.nodup_dedup vs).filter _
  rw [show (vs.dedup.filter (fun u => vlt u v)).length
      = ((vs.dedup.filter (fun u => vlt u v)).dedup).length by rw [List.Nodup.dedup h1]]
  rw [← List.card_toFinset, List.toFinset_filter, dedup_toFinset]

theorem codeOf_lt_card {vs : List Value} {v : Value} (hv : v ∈ vs) :
    codeOf vs v < vs.toFinset.card := by
  rw [codeOf_eq_card]
  apply Finset.card_lt_card
  rw [Finset.filter_ssubset]
  exact ⟨v, List.mem_toFinset.mpr hv, by simp [vlt_irrefl]⟩

theorem codeOf_strictMono {vs : List Value} {u v : Value} (hu : u ∈ vs)
    (huv : vlt u v = true) : codeOf vs u < codeOf vs v := by
  rw [codeOf_eq_card, codeOf_eq_card]
  apply Finset.card_lt_card
  have hsub : vs.toFinset.filter (fun x => vlt x u = true) ⊆
      vs.toFinset.filter (fun x => vlt x v = true) := by
    intro x hx
    rw [Finset.mem_filter] at hx ⊢
    exact ⟨hx.1, vlt_trans hx.2 huv⟩
  rw [Finset.ssubset_iff_of_subset hsub]
  refine ⟨u, Finset.mem_filter.mpr ⟨List.mem_toFinset.mpr hu, huv⟩, fun hmem => ?_⟩
  simpa [vlt_irrefl] using (Finset.mem_filter.mp hmem).2

theorem codeOf_inj {vs : List Value} {u v : Value} (hu : u ∈ vs) (hv : v ∈ vs)
    (h : codeOf vs u = codeOf vs v) : u = v := by
  by_contra hne
  rcases vlt_total hne with hlt | hlt
  · exact absurd h (Nat.ne_of_lt (codeOf_strictMono hu hlt))
  · exact absurd h.symm (Nat.ne_of_lt (codeOf_strictMono hv hlt))

theorem codeOf_image (vs : List Value) :
    vs.toFinset.image (codeOf vs) = Finset.range vs.toFinset.card := by
  have hinj : Set.InjOn (codeOf vs) vs.toFinset := fun u hu v hv h =>
    codeOf_inj (List.mem_toFinset.mp (Finset.mem_coe.mp hu))
      (List.mem_toFinset.mp (Finset.mem_coe.mp hv)) h
  apply Finset.eq_of_subset_of_card_le
  · intro n hn
    rw [Finset.mem_image] at hn
    obtain ⟨v, hv, rfl⟩ := hn
    rw [Finset.mem_range]
    exact codeOf_lt_card (List.mem_toFinset.mp hv)
  · rw [Finset.card_range, Finset.card_image_of_injOn hinj]

theorem num_cast_injective : Function.Injective (fun n : ℕ => Value.num (n : ℚ)) := by
  intro a b hab
  exact Nat.cast_inj.mp (Value.num.inj hab)

/-- Encoding an already encoded column computes the same codes: the codes of
a column are exactly `0, ..., k-1` in the column's value order, and ranking
them again is the identity. -/
theorem codeOf_encode {vs : List Value} {v : Value} (hv : v ∈ vs) :
    codeOf (encodeColumn vs) (Value.num (codeOf vs v)) = codeOf vs v := by
  have hj : codeOf vs v < vs.toFinset.card := codeOf_lt_card hv
  have h1 : (encodeColumn vs).toFinset
      = (Finset.range vs.toFinset.card).image (fun n : ℕ => Value.num (n : ℚ)) := by
    rw [encodeColumn, toFinset_map_eq, ← codeOf_image, Finset.image_image]
    rfl
  rw [codeOf_eq_card, h1, Finset.filter_image]
  have h2 : (Finset.range vs.toFinset.card).filter
      (fun n : ℕ => vlt (Value.num (n : ℚ)) (Value.num ((codeOf vs v : ℕ) : ℚ)) = true)
      = Finset.range (codeOf vs v) := by
    ext n
    simp only [Finset.mem_filter, Finset.mem_range, vlt, decide_eq_true_eq, Nat.cast_lt]
    omega
  rw [h2, Finset.card_image_of_injective _ num_cast_injective, Finset.card_range]

theorem encodeColumn_idem (vs : List Value) :
    encodeColumn (encodeColumn vs) = encodeColumn vs := by
  have hmm : encodeColumn (encodeColumn vs)
      = vs.map ((fun w => Value.num (codeOf (encodeColumn vs) w)) ∘
          (fun v => Value.num (codeOf vs v))) := by
    rw [← List.map_map]
    rfl
  rw [hmm]
  apply List.map_congr_left
  intro v hv
  simp only [Function.comp_apply]
  rw [codeOf_encode hv]

/-- The encoding loop, fold-free: each column named somewhere in `L` ends up
encoded once (duplicates in `L` collapse by `encodeColumn_idem`), every other
column is untouched. -/
theorem encodeNamed_foldl (L : List String) (cols : List Column) :
    L.foldl encodeNamed cols =
      cols.map (fun c =>
        if c.name ∈ L then Column.mk c.name Dtype.numeric (encodeColumn c.values) else c) := by
  induction L generalizing cols with
  | nil => simp
  | cons n L ih =>
    rw [List.foldl_cons, ih, encodeNamed, List.map_map]
    apply List.map_congr_left
    intro c hc
    simp only [Function.comp_apply]
    by_cases hn : c.name = n
    · rw [if_pos hn, if_pos (List.mem_cons.mpr (Or.inl hn))]
      dsimp only
      by_cases hmem : c.name ∈ L
      · rw [if_pos hmem, encodeColumn_idem]
      · rw [if_neg hmem]
    · rw [if_neg hn]
      by_cases hmem : c.name ∈ L
      · rw [if_pos hmem, if_pos (List.mem_cons.mpr (Or.inr hmem))]
      · rw [if_neg hmem,
          if_neg (fun hmc => (List.mem_cons.mp hmc).elim hn hmem)]

/-- C7: label encoding keeps the row count, the column count and order and
the names; each column named in `L` is replaced by its zero-based
sorted-rank codes (`encodeColumn`), all other columns are unchanged; and
within any column the code assignment sends equal values to equal codes and
distinct values to distinct codes. -/
theorem label_encode_shape_and_codes (T : Table) (L : List String) :
    (label_encode_categorical_variables T L).nrows = T.nrows ∧
    (label_encode_categorical_variables T L).cols =
      T.cols.map (fun c =>
        if c.name ∈ L then Column.mk c.name Dtype.numeric (encodeColumn c.values) else c) ∧
    (label_encode_categorical_variables T L).cols.map Column.name =
      T.cols.map Column.name ∧
    (∀ c ∈ T.cols, (encodeColumn c.values).length = c.values.length) ∧
    (∀ c ∈ T.cols, ∀ v ∈ c.values, ∀ w ∈ c.values,
      (codeOf c.values v = codeOf c.values w ↔ v = w)) := by
  refine ⟨rfl, encodeNamed_foldl L T.cols, ?_, ?_, ?_⟩
  · rw [show (label_encode_categorical_variables T L).cols = L.foldl encodeNamed T.cols
        from rfl, encodeNamed_foldl, List.map_map]
    apply List.map_congr_left
    intro c hc
    simp only [Function.comp_apply]
    by_cases hmem : c.name ∈ L
    · rw [if_pos hmem]
    · rw [if_neg hmem]
  · intro c hc
    exact List.length_map _ _
  · intro c hc v hv w hw
    exact ⟨fun hcode => codeOf_inj hv hw hcode, fun hvw => by rw [hvw]⟩

/-- Witness for C7 at the example table: names and order survive, and the
categorical column's two distinct labels receive distinct codes. -/
theorem label_encode_shape_and_codes_witness :
    (label_encode_categorical_variables encodeExampleTable ["B", "D"]).cols.map Column.name =
      ["B", "C"] ∧
    (codeOf encodeColB.values (Value.str "x") = codeOf encodeColB.values (Value.str "z") ↔
      Value.str "x" = Value.str "z") := by
  have h := label_encode_shape_and_codes encodeExampleTable ["B", "D"]
  refine ⟨?_, h.2.2.2.2 encodeColB (by decide) (Value.str "x") (by decide)
    (Value.str "z") (by decide)⟩
  rw [h.2.2.1]
  decide

/-- C9: names in `L` that are not column names of `T` are silently skipped:
the output coincides with the output on the sublist of names that do occur,
and (the embedding being a total function) no error is possible. -/
theorem absent_names_skipped (T : Table) (L : List String) :
    label_encode_categorical_variables T L =
      label_encode_categorical_variables T
        (L.filter (fun n => T.cols.any (fun c => c.name == n))) := by
  simp only [label_encode_categorical_variables]
  congr 1
  rw [encodeNamed_foldl, encodeNamed_foldl]
  apply List.map_congr_left
  intro c hc
  by_cases hmem : c.name ∈ L
  · rw [if_pos hmem,
      if_pos (List.mem_filter.mpr ⟨hmem,
        List.any_eq_true.mpr ⟨c, hc, by simp⟩⟩)]
  · rw [if_neg hmem, if_neg (fun hmf => hmem (List.mem_filter.mp hmf).1)]

end HR
